import Mathlib

/-!
Verification of the change-notification core of the pm-tool backend
(diff + recipient resolution + debounce aggregator), as a shallow
embedding of the JavaScript source.  The repository contains near-
duplicate snapshots of the same module; we embed both the
`queueMail`/`sendDebouncedMail`/`diffTasks`/`normalizeTask`/`jsonStable`
family (src/unnamed/part_000) and the `enqueueChanges`/`pickComparable`
family (src/server.js), since the claims cite symbols from both.
Machine timers are modelled by an explicit per-entry absolute firing
time and an event-driven interpreter; JS strings are Lean `String`s,
JS `undefined`/missing fields are `Option`.
-/

namespace PMTool

/-- Model of JavaScript `String.prototype.trim()`: drop whitespace from
both ends (implemented over the character list so that it is fully
kernel-computable). -/
def jsTrim (s : String) : String :=
  String.mk (((s.data.dropWhile Char.isWhitespace).reverse.dropWhile Char.isWhitespace).reverse)

/-- Model of JavaScript `String.prototype.toLowerCase()` (per-character
lowering, adequate for the ASCII team names the directory holds). -/
def jsToLower (s : String) : String :=
  String.mk (s.data.map Char.toLower)

/-- Helper for `jsSplitWs`: accumulate maximal runs of non-whitespace
characters. -/
def wordsAux : List Char → List Char → List (List Char)
  | [], acc => if acc = [] then [] else [acc.reverse]
  | c :: cs, acc =>
    if c.isWhitespace then
      (if acc = [] then wordsAux cs [] else acc.reverse :: wordsAux cs [])
    else wordsAux cs (c :: acc)

/-- Model of `s.split(/\s+/)` as used in `normalizeLinks`: the source
immediately `filter(Boolean)`s the result, so the empty tokens the JS
split can produce at the ends are irrelevant and we return the
non-empty whitespace-separated words directly. -/
def jsSplitWs (s : String) : List String :=
  (wordsAux s.data []).map String.mk

/-- Model of the source's `safeStr`: `null`/`undefined` become `""`,
strings are kept. -/
def safeStr : Option String → String
  | none => ""
  | some v => v

/-- Lexicographic comparison of character lists by code point (the
order JavaScript's default `Array.prototype.sort()` induces on
strings). -/
def leChars : List Char → List Char → Bool
  | [], _ => true
  | _ :: _, [] => false
  | c :: cs, d :: ds => if c.toNat = d.toNat then leChars cs ds else decide (c.toNat < d.toNat)

/-- Lexicographic string comparison. -/
def strLeB (a b : String) : Bool := leChars a.data b.data

/-- Insert a string into a (lexicographically) sorted list. -/
def insSorted (s : String) : List String → List String
  | [] => [s]
  | t :: ts => if strLeB s t then s :: t :: ts else t :: insSorted s ts

/-- Model of JavaScript `Array.prototype.sort()` on an array of strings:
a lexicographic insertion sort (any total order gives the same
canonical representative of the multiset, which is all the source's
equality checks depend on). -/
def sortStrings : List String → List String
  | [] => []
  | s :: ss => insSorted s (sortStrings ss)

/-- Helper for `dedupF`: keep the first occurrence of each element,
skipping anything already seen. -/
def dedupFAux (seen : List String) : List String → List String
  | [] => []
  | x :: xs => if x ∈ seen then dedupFAux seen xs else x :: dedupFAux (x :: seen) xs

/-- Model of `new Set(list)` read back in iteration order: first
occurrences, duplicates dropped. -/
def dedupF (l : List String) : List String := dedupFAux [] l

/-- A JS value that can sit in a task's `links` slot: either a single
delimited string or an array of strings. -/
inductive StrOrList where
  | s (v : String)
  | l (v : List String)
deriving DecidableEq

/-- A task record, restricted to the fields the notification core ever
reads.  Missing/`undefined` fields are `none`. -/
structure Task where
  id : String
  status : Option String
  title : Option String
  description : Option String
  comment : Option String
  deadline : Option String
  links : Option StrOrList
  link : Option StrOrList
  url : Option StrOrList
  assignedTo : Option (List String)
deriving DecidableEq

/-- The watched fields, in the source's `WATCH_FIELDS` order. -/
def WATCH_FIELDS : List String :=
  ["status", "title", "description", "deadline", "links", "assignedTo"]

/-- The object built by part_000's `normalizeTask`: the six watched
fields copied verbatim (the source only shallow-copies the arrays; all
canonicalisation happens later inside `jsonStable`). -/
structure NormObj where
  status : Option String
  title : Option String
  description : Option String
  deadline : Option String
  links : Option StrOrList
  assignedTo : Option (List String)
deriving DecidableEq

/-- part_000 `normalizeTask`: project a (possibly absent) task onto the
watched fields. -/
def normalizeTask (t : Option Task) : NormObj :=
  { status := t.bind (·.status)
    title := t.bind (·.title)
    description := t.bind (·.description)
    deadline := t.bind (·.deadline)
    links := t.bind (·.links)
    assignedTo := t.bind (·.assignedTo) }

/-- A JSON value as produced for a watched field by `jsonStable`'s
stringification: a string or an array of strings. -/
inductive JVal where
  | s (v : String)
  | arr (v : List String)
deriving DecidableEq

/-- The `jsonStable` replacer: arrays are sorted before serialisation,
other values pass through. -/
def canonVal : JVal → JVal
  | .s v => .s v
  | .arr xs => .arr (sortStrings xs)

/-- View a raw `links` slot as a JSON value. -/
def jvalOfLinks : StrOrList → JVal
  | .s v => .s v
  | .l v => .arr v

/-- Read one watched field of a normalized object as a JSON value
(`none` models JS `undefined`, which `JSON.stringify` omits). -/
def getNormField (o : NormObj) (f : String) : Option JVal :=
  if f = "status" then o.status.map JVal.s
  else if f = "title" then o.title.map JVal.s
  else if f = "description" then o.description.map JVal.s
  else if f = "deadline" then o.deadline.map JVal.s
  else if f = "links" then o.links.map jvalOfLinks
  else if f = "assignedTo" then o.assignedTo.map JVal.arr
  else none

/-- JSON string escaping for the two characters that matter for
delimiting (`"` and `\`); all the injectivity arguments below only need
the encoding to be uniquely decodable. -/
def escChars : List Char → List Char
  | [] => []
  | c :: cs => if c = '"' ∨ c = '\\' then '\\' :: c :: escChars cs else c :: escChars cs

/-- A JSON string literal: quote, escaped body, quote. -/
def qEnc (s : String) : List Char := '"' :: (escChars s.data ++ ['"'])

/-- Body of a JSON array of string literals, comma-separated. -/
def arrBody : List String → List Char
  | [] => []
  | [x] => qEnc x
  | x :: xs => qEnc x ++ ',' :: arrBody xs

/-- Serialise a JSON value (string literal or array of string
literals). -/
def renderVal : JVal → List Char
  | .s v => qEnc v
  | .arr xs => '[' :: (arrBody xs ++ [']'])

/-- The `"key":value` pieces of the stringified normalized object:
watched fields in declaration order, `undefined` fields omitted, arrays
sorted by the replacer. -/
def piecesOf (o : NormObj) : List (String × JVal) :=
  WATCH_FIELDS.filterMap (fun f => (getNormField o f).map (fun v => (f, canonVal v)))

/-- Body of a JSON object: `"key":value` pieces, comma-separated. -/
def piecesBody : List (String × JVal) → List Char
  | [] => []
  | [p] => qEnc p.1 ++ ':' :: renderVal p.2
  | p :: ps => (qEnc p.1 ++ ':' :: renderVal p.2) ++ ',' :: piecesBody ps

/-- part_000 `jsonStable` applied to a `normalizeTask` result:
`JSON.stringify` with the sort-arrays replacer. -/
def jsonStableObj (o : NormObj) : String :=
  String.mk ('{' :: (piecesBody (piecesOf o) ++ ['}']))

/-- part_000 `jsonStable` applied to a single watched-field value (as
`buildMailTextForRecipient` does); `JSON.stringify(undefined)` is
`undefined`, modelled as `none`. -/
def jsonStableF (v : Option JVal) : Option String :=
  v.map (fun w => String.mk (renderVal (canonVal w)))

/-- Canonicalise the raw links slot the way the replacer will: sort the
array form, keep the string form. -/
def canonLinks : StrOrList → StrOrList
  | .s v => .s v
  | .l l => .l (sortStrings l)

/-- The canonical normalized record: `normalizeTask`'s projection with
its multi-valued fields sorted.  Two tasks are "normalized-equal" in
the spec's sense iff their canonical records coincide. -/
def canonObj (o : NormObj) : NormObj :=
  { o with links := o.links.map canonLinks, assignedTo := o.assignedTo.map sortStrings }

/-- Canonical record of a (possibly absent) task. -/
def canonRecord (t : Option Task) : NormObj := canonObj (normalizeTask t)

/-- Partial inverse of `piecesOf`: first piece with the given key. -/
def plook (k : String) : List (String × JVal) → Option JVal
  | [] => none
  | p :: ps => if p.1 = k then some p.2 else plook k ps

/-- Read a string-shaped piece back. -/
def strOf : Option JVal → Option String
  | some (.s v) => some v
  | _ => none

/-- Read a links-shaped piece back. -/
def linkOf : Option JVal → Option StrOrList
  | some (.s v) => some (.s v)
  | some (.arr l) => some (.l l)
  | none => none

/-- Read an array-shaped piece back. -/
def arrOf : Option JVal → Option (List String)
  | some (.arr l) => some l
  | _ => none

/-- Decode a piece list back into a normalized object (used to show the
stringification is injective on canonical records). -/
def recObj (ps : List (String × JVal)) : NormObj :=
  { status := strOf (plook "status" ps)
    title := strOf (plook "title" ps)
    description := strOf (plook "description" ps)
    deadline := strOf (plook "deadline" ps)
    links := linkOf (plook "links" ps)
    assignedTo := arrOf (plook "assignedTo" ps) }

/-- Scan a JSON string literal body (after the opening quote): stop at
the closing quote, unescape `\"` and `\\`. -/
def scanQ : List Char → Option (List Char × List Char)
  | [] => none
  | c :: rest =>
    if c = '"' then some ([], rest)
    else if c = '\\' then
      match rest with
      | [] => none
      | c2 :: rest2 =>
        match scanQ rest2 with
        | none => none
        | some (s, r) => some (c2 :: s, r)
    else
      match scanQ rest with
      | none => none
      | some (s, r) => some (c :: s, r)

/-- Scan a JSON array body (after the opening bracket). -/
def scanArr (fuel : Nat) (cs : List Char) : Option (List String × List Char) :=
  match cs with
  | [] => none
  | c :: rest =>
    if c = ']' then some ([], rest)
    else if c = '"' then
      match scanQ rest with
      | none => none
      | some (s, r) =>
        match r with
        | [] => none
        | d :: r2 =>
          if d = ',' then
            match fuel with
            | 0 => none
            | fuel' + 1 =>
              match scanArr fuel' r2 with
              | none => none
              | some (xs, rr) => some (String.mk s :: xs, rr)
          else if d = ']' then some ([String.mk s], r2)
          else none
    else none

/-- Scan a JSON value (string literal or array of string literals). -/
def scanVal (fuel : Nat) (cs : List Char) : Option (JVal × List Char) :=
  match cs with
  | [] => none
  | c :: rest =>
    if c = '"' then (scanQ rest).map (fun p => (JVal.s (String.mk p.1), p.2))
    else if c = '[' then (scanArr fuel rest).map (fun p => (JVal.arr p.1, p.2))
    else none

/-- Scan the `"key":value` pieces of a JSON object body up to the
closing brace. -/
def scanPieces (fuel : Nat) (cs : List Char) : Option (List (String × JVal) × List Char) :=
  match cs with
  | [] => none
  | c :: rest =>
    if c = '}' then some ([], rest)
    else if c = '"' then
      match scanQ rest with
      | none => none
      | some (k, r) =>
        match r with
        | [] => none
        | d :: r2 =>
          if d = ':' then
            match fuel with
            | 0 => none
            | f + 1 =>
              match scanVal f r2 with
              | none => none
              | some (v, r3) =>
                match r3 with
                | [] => none
                | e :: r4 =>
                  if e = ',' then
                    match scanPieces f r4 with
                    | none => none
                    | some (ps, r5) => some ((String.mk k, v) :: ps, r5)
                  else if e = '}' then some ([(String.mk k, v)], r4)
                  else none
          else none
    else none

/-- Fuel measure for a JSON value. -/
def mV : JVal → Nat
  | .s _ => 0
  | .arr xs => xs.length

/-- Fuel measure for a piece list. -/
def msr : List (String × JVal) → Nat
  | [] => 0
  | p :: ps => 1 + mV p.2 + msr ps

/-! ## The Differ (part_000 `diffTasks`) -/

/-- Change type of a diff event. -/
inductive CType where
  | created
  | updated
  | deleted
deriving DecidableEq

/-- A change event as built by part_000's `diffTasks`:
`{type, id, before, after, recipients}`. -/
structure Change where
  type : CType
  id : String
  before : Option Task
  after : Option Task
  recipients : List String
deriving DecidableEq

/-- Model of `new Map(tasks.map(t => [t.id, t])).get(i)`: the last
task in the list with the given id (later entries overwrite earlier
ones). -/
def lookupLast (ts : List Task) (i : String) : Option Task :=
  match ts with
  | [] => none
  | t :: rest =>
    match lookupLast rest i with
    | some r => some r
    | none => if t.id = i then some t else none

/-- The id universe of one diff run:
`new Set([...oldMap.keys(), ...newMap.keys()])` in iteration order. -/
def allIds (oldTasks newTasks : List Task) : List String :=
  dedupF (oldTasks.map (·.id) ++ newTasks.map (·.id))

/-- Model of `(t?.assignedTo || []).map(String)`. -/
def assignedOf (t : Option Task) : List String :=
  (t.bind (·.assignedTo)).getD []

/-- Recipient set of one event:
`new Set([...beforeAssigned, ...afterAssigned])` where each side is
itself a `Set` of the assignees. -/
def recipientsOf (b a : Option Task) : List String :=
  dedupF (dedupF (assignedOf b) ++ dedupF (assignedOf a))

/-- The per-id body of part_000's `diffTasks` loop: created when only in
the new snapshot, deleted when only in the old one, updated when both
normalized records stringify differently. -/
def mkChange (oldTasks newTasks : List Task) (i : String) : Option Change :=
  let before := lookupLast oldTasks i
  let after := lookupLast newTasks i
  match before, after with
  | none, none => none
  | none, some a => some ⟨.created, i, none, some a, recipientsOf none (some a)⟩
  | some b, none => some ⟨.deleted, i, some b, none, recipientsOf (some b) none⟩
  | some b, some a =>
    if jsonStableObj (normalizeTask (some b)) ≠ jsonStableObj (normalizeTask (some a)) then
      some ⟨.updated, i, some b, some a, recipientsOf (some b) (some a)⟩
    else none

/-- part_000 `diffTasks`: one pass over the union of ids. -/
def diffTasks (oldTasks newTasks : List Task) : List Change :=
  (allIds oldTasks newTasks).filterMap (mkChange oldTasks newTasks)

/-- The watched fields an updated event's digest block lists, taken from
`buildMailTextForRecipient`: every watched field whose per-field
`jsonStable` serialisations of the two normalized records differ. -/
def changedFields (b a : Option Task) : List String :=
  WATCH_FIELDS.filter (fun f =>
    decide (jsonStableF (getNormField (normalizeTask b) f) ≠
            jsonStableF (getNormField (normalizeTask a) f)))

/-! ## The Recipient Resolver (part_000 `resolveEmailForName`) -/

/-- JS object access `TEAM_EMAILS[name]` on an insertion-ordered
directory with unique keys. -/
def olookup (dir : List (String × String)) (k : String) : Option String :=
  match dir with
  | [] => none
  | kv :: rest => if kv.1 = k then some kv.2 else olookup rest k

/-- Model of `Object.keys(TEAM_EMAILS).find(k => k.toLowerCase() === name.toLowerCase())`
together with the key it binds. -/
def firstCi (dir : List (String × String)) (name : String) : Option (String × String) :=
  match dir with
  | [] => none
  | kv :: rest => if jsToLower kv.1 = jsToLower name then some kv else firstCi rest name

/-- The case-insensitive fallback of `resolveEmailForName`:
`return key ? TEAM_EMAILS[key] : null` (an empty-string key is falsy). -/
def resolveFallback (dir : List (String × String)) (name : String) : Option String :=
  match firstCi dir name with
  | some kv => if kv.1 = "" then none else olookup dir kv.1
  | none => none

/-- part_000 `resolveEmailForName`: a falsy name resolves to null; an
exact directory hit with a truthy (non-empty) address is returned;
otherwise the case-insensitive fallback runs. -/
def resolveEmailForName (dir : List (String × String)) (name : String) : Option String :=
  if name = "" then none
  else
    match olookup dir name with
    | some direct => if direct = "" then resolveFallback dir name else some direct
    | none => resolveFallback dir name

/-! ## The server.js normalizer (`pickComparable`) -/

/-- The canonical record built by server.js's `pickComparable`. -/
structure Comparable where
  status : String
  title : String
  description : String
  deadline : String
  links : List String
  assignedTo : List String
deriving DecidableEq

/-- Model of `task?.links ?? task?.link ?? task?.url ?? null`. -/
def rawLinks (t : Option Task) : Option StrOrList :=
  ((t.bind (·.links)).orElse (fun _ => t.bind (·.link))).orElse (fun _ => t.bind (·.url))

/-- server.js `normalizeLinks`: a falsy slot is no links; an array is
trimmed and cleared of empty entries; a string is split on whitespace
and likewise cleaned. -/
def normalizeLinks (t : Option Task) : List String :=
  match rawLinks t with
  | none => []
  | some (.s s) => if s = "" then [] else ((jsSplitWs s).map jsTrim).filter (· ≠ "")
  | some (.l xs) => (xs.map jsTrim).filter (· ≠ "")

/-- server.js `pickComparable`: trim the four scalar watched fields
(description falling back to `comment`), sort the normalized links, and
sort a copy of `assignedTo` (no trimming or deduplication there). -/
def pickComparable (t : Option Task) : Comparable :=
  { status := jsTrim (safeStr (t.bind (·.status)))
    title := jsTrim (safeStr (t.bind (·.title)))
    description := jsTrim (safeStr ((t.bind (·.description)).orElse (fun _ => t.bind (·.comment))))
    deadline := jsTrim (safeStr (t.bind (·.deadline)))
    links := sortStrings (normalizeLinks t)
    assignedTo :=
      match t.bind (·.assignedTo) with
      | some l => sortStrings l
      | none => [] }

/-! ## The Debounce Aggregator (part_000 `queueMail` / `sendDebouncedMail`)

Timers are modelled by storing, inside each pending entry, the absolute
time at which its (single) scheduled flush will fire; cancelling and
rescheduling is overwriting that time.  An event-driven interpreter
fires every due timer before processing the next enqueue request. -/

/-- Aggregator configuration: debounce duration `D` (ms) and whether an
SMTP transport is configured. -/
structure Config where
  D : Nat
  smtpConfigured : Bool

/-- One entry of the `pendingByEmail` map:
`{recipientName, changes, timer, editorName, editorEmail}` with the
timer as its absolute firing time. -/
structure QEntry where
  recipientName : String
  changes : List Change
  timerAt : Nat
  editorName : String
  editorEmail : String
deriving DecidableEq

/-- The `pendingByEmail` map, insertion-ordered. -/
abbrev Pending := List (String × QEntry)

/-- Model of `Map.get`. -/
def plookup (m : Pending) (k : String) : Option QEntry :=
  match m with
  | [] => none
  | p :: rest => if p.1 = k then some p.2 else plookup rest k

/-- Model of `Map.set`: overwrite in place, else append. -/
def pset (m : Pending) (k : String) (v : QEntry) : Pending :=
  match m with
  | [] => [(k, v)]
  | p :: rest => if p.1 = k then (k, v) :: rest else p :: pset rest k v

/-- Model of `Map.delete`. -/
def pdelete (m : Pending) (k : String) : Pending :=
  m.filter (fun p => decide (p.1 ≠ k))

/-- A recorded Mailer invocation: recipient, the buffered events handed
to the digest formatter, the time the flush fired, and whether delivery
succeeded. -/
structure MailRec where
  toAddr : String
  changes : List Change
  firedAt : Nat
  ok : Bool
deriving DecidableEq

/-- Aggregator state: the pending map plus the log of Mailer
invocations. -/
structure Sys where
  pending : Pending
  sent : List MailRec
deriving DecidableEq

/-- part_000 `queueMail` at time `now`: a falsy recipient address is a
no-op; a fresh recipient gets a new entry with a flush scheduled at
`now + D`; an already-buffering recipient gets the events appended, a
truthy editor overwrites the stored one, and the pending flush is
cancelled and rescheduled at `now + D`. -/
def queueMail (cfg : Config) (now : Nat) (recipientName recipientEmail : String)
    (changes : List Change) (editorName editorEmail : String) (m : Pending) : Pending :=
  if recipientEmail = "" then m
  else
    match plookup m recipientEmail with
    | none =>
      pset m recipientEmail ⟨recipientName, changes, now + cfg.D, editorName, editorEmail⟩
    | some e =>
      pset m recipientEmail
        ⟨e.recipientName, e.changes ++ changes, now + cfg.D,
         if editorName ≠ "" then editorName else e.editorName,
         if editorEmail ≠ "" then editorEmail else e.editorEmail⟩

/-- part_000 `sendDebouncedMail`: look the entry up (no entry: no-op),
delete it from the table first, then — only if SMTP is configured —
invoke the Mailer once; a failed delivery (`ok = false`) is only
logged, nothing is re-enqueued. -/
def sendDebouncedMail (cfg : Config) (ok : Bool) (email : String) (s : Sys) : Sys :=
  match plookup s.pending email with
  | none => s
  | some e =>
    let m := pdelete s.pending email
    if cfg.smtpConfigured then
      ⟨m, s.sent ++ [⟨email, e.changes, e.timerAt, ok⟩]⟩
    else ⟨m, s.sent⟩

/-- Recipients whose scheduled flush time has been reached. -/
def dueKeys (m : Pending) (t : Nat) : List String :=
  (m.filter (fun p => decide (p.2.timerAt ≤ t))).map (·.1)

/-- Fire every due timer (in map order) at time `t`. -/
def fireDue (cfg : Config) (ok : Bool) (t : Nat) (s : Sys) : Sys :=
  (dueKeys s.pending t).foldl (fun s k => sendDebouncedMail cfg ok k s) s

/-- One enqueue request arriving at time `t`. -/
structure EnqEv where
  t : Nat
  rName : String
  rEmail : String
  changes : List Change
  eName : String
  eEmail : String
deriving DecidableEq

/-- Process one request: first fire whatever timers are due by its
arrival time, then run `queueMail`. -/
def stepQ (cfg : Config) (ok : Bool) (s : Sys) (ev : EnqEv) : Sys :=
  let s := fireDue cfg ok ev.t s
  ⟨queueMail cfg ev.t ev.rName ev.rEmail ev.changes ev.eName ev.eEmail s.pending, s.sent⟩

/-- Run a time-ordered list of enqueue requests from the idle state and
then let the clock run to `horizon`, firing the remaining timers. -/
def runQ (cfg : Config) (ok : Bool) (evs : List EnqEv) (horizon : Nat) : Sys :=
  fireDue cfg ok horizon (evs.foldl (stepQ cfg ok) ⟨[], []⟩)

/-- Gap condition of the debounce claims: starting from a previous
arrival at `p`, every next request arrives no earlier, and strictly
less than `D` after the previous one. -/
def timesOK (cfg : Config) (p : Nat) : List EnqEv → Bool
  | [] => true
  | e :: es => decide (p ≤ e.t) && decide (e.t < p + cfg.D) && timesOK cfg e.t es

/-- Arrival time of the last request of `e0 :: rest`. -/
def lastTime (e0 : EnqEv) (rest : List EnqEv) : Nat :=
  rest.foldl (fun _ e => e.t) e0.t

/-- The editor field remembered after a run of enqueues: each truthy
value overwrites the previous one. -/
def foldEditor (init : String) (evs : List EnqEv) (f : EnqEv → String) : String :=
  evs.foldl (fun cur e => if f e ≠ "" then f e else cur) init

/-! ## The server.js variant (`enqueueChanges`)

This snapshot only schedules a timer when none is pending
(`if (!existing.timer)`): the flush time of a burst is fixed by its
first request.  Its timer callback snapshots, deletes, then sends, with
no SMTP guard and the retry commented out. -/

/-- One entry of server.js's `mailQueue`:
`{ timer, items, lastEditor }`, the timer again as its absolute firing
time (a stored entry always has one: the callback deletes the whole
entry and `clearTimeout` is never called in this variant). -/
structure EEntry where
  items : List Change
  lastEditor : Option (String × String)
  timerAt : Nat
deriving DecidableEq

/-- The `mailQueue` map. -/
abbrev EPending := List (String × EEntry)

/-- Model of `Map.get`. -/
def elookup (m : EPending) (k : String) : Option EEntry :=
  match m with
  | [] => none
  | p :: rest => if p.1 = k then some p.2 else elookup rest k

/-- Model of `Map.set`. -/
def eset (m : EPending) (k : String) (v : EEntry) : EPending :=
  match m with
  | [] => [(k, v)]
  | p :: rest => if p.1 = k then (k, v) :: rest else p :: eset rest k v

/-- Model of `Map.delete`. -/
def edelete (m : EPending) (k : String) : EPending :=
  m.filter (fun p => decide (p.1 ≠ k))

/-- server.js aggregator state. -/
structure ESys where
  pending : EPending
  sent : List MailRec
deriving DecidableEq

/-- server.js `enqueueChanges` at time `now`: append the events and
merge the editor; schedule a flush `D` from now only when no timer is
pending — an existing timer is left untouched. -/
def enqueueChanges (cfg : Config) (now : Nat) (email : String)
    (cs : List Change) (editor : Option (String × String)) (m : EPending) : EPending :=
  match elookup m email with
  | none => eset m email ⟨cs, editor, now + cfg.D⟩
  | some e => eset m email ⟨e.items ++ cs, editor.orElse (fun _ => e.lastEditor), e.timerAt⟩

/-- The timer callback inside `enqueueChanges`: snapshot the items,
delete the entry before sending, then invoke the Mailer once (failures
are logged; the retry is commented out in the source). -/
def eflush (ok : Bool) (email : String) (s : ESys) : ESys :=
  match elookup s.pending email with
  | none => s
  | some e => ⟨edelete s.pending email, s.sent ++ [⟨email, e.items, e.timerAt, ok⟩]⟩

/-- Recipients whose scheduled flush time has been reached. -/
def edueKeys (m : EPending) (t : Nat) : List String :=
  (m.filter (fun p => decide (p.2.timerAt ≤ t))).map (·.1)

/-- Fire every due timer at time `t`. -/
def efireDue (ok : Bool) (t : Nat) (s : ESys) : ESys :=
  (edueKeys s.pending t).foldl (fun s k => eflush ok k s) s

/-- One enqueue request for the server.js variant. -/
structure EEnqEv where
  t : Nat
  email : String
  cs : List Change
  editor : Option (String × String)
deriving DecidableEq

/-- Process one request under the server.js variant. -/
def stepE (cfg : Config) (ok : Bool) (s : ESys) (ev : EEnqEv) : ESys :=
  let s := efireDue ok ev.t s
  ⟨enqueueChanges cfg ev.t ev.email ev.cs ev.editor s.pending, s.sent⟩

/-- Run the server.js variant over a time-ordered request list, then
let the clock run to `horizon`. -/
def runE (cfg : Config) (ok : Bool) (evs : List EEnqEv) (horizon : Nat) : ESys :=
  efireDue ok horizon (evs.foldl (stepE cfg ok) ⟨[], []⟩)

/-! ## Concrete data shared by witnesses and counterexamples -/

/-- A minimal task with a given id and status. -/
def mkTask (i : String) (st : Option String) : Task :=
  ⟨i, st, none, none, none, none, none, none, none, none⟩

/-- A concrete created-event. -/
def ch1 : Change := ⟨.created, "1", none, some (mkTask "1" (some "todo")), ["Alice"]⟩

/-- A second concrete created-event. -/
def ch2 : Change := ⟨.created, "2", none, some (mkTask "2" (some "doing")), ["Alice"]⟩

/-- A third concrete created-event. -/
def ch3 : Change := ⟨.created, "3", none, some (mkTask "3" (some "done")), ["Alice"]⟩

/-- A task whose links are `["b", "a"]`. -/
def twA : Task := { mkTask "1" none with links := some (.l ["b", "a"]) }

/-- The same task with its links reordered to `["a", "b"]`. -/
def twB : Task := { mkTask "1" none with links := some (.l ["a", "b"]) }

/-- The "Ship it" task of the spec scenario, assigned to Bob and Cara. -/
def twC : Task := { mkTask "2" none with title := some "Ship it", assignedTo := some ["Bob", "Cara"] }

/-- A task with duplicated links and an untrimmed assignee, exercising
the normalizer's canonicalisation. -/
def twD : Task := { mkTask "1" none with links := some (.l ["b", "a", "a"]), assignedTo := some [" x "] }

/-! ## Helper lemmas: sorting -/

theorem charToNat_inj {c d : Char} (h : c.toNat = d.toNat) : c = d :=
  Char.eq_of_val_eq (UInt32.ext h)

theorem leChars_total : ∀ l₁ l₂ : List Char, leChars l₁ l₂ = true ∨ leChars l₂ l₁ = true := by
  intro l₁
  induction l₁ with
  | nil => intro l₂; left; rfl
  | cons c cs ih =>
    intro l₂
    cases l₂ with
    | nil => right; rfl
    | cons d ds =>
      by_cases h : c.toNat = d.toNat
      · rcases ih ds with h1 | h1
        · left; simp [leChars, h, h1]
        · right; simp [leChars, h.symm, h1]
      · have h' : ¬ d.toNat = c.toNat := fun he => h he.symm
        rcases Nat.lt_or_ge c.toNat d.toNat with hlt | hge
        · left; simp [leChars, h, hlt]
        · have hlt : d.toNat < c.toNat := by omega
          right; simp [leChars, h', hlt]

theorem leChars_trans : ∀ l₁ l₂ l₃ : List Char,
    leChars l₁ l₂ = true → leChars l₂ l₃ = true → leChars l₁ l₃ = true := by
  intro l₁
  induction l₁ with
  | nil => intro l₂ l₃ _ _; rfl
  | cons c cs ih =>
    intro l₂ l₃ h1 h2
    cases l₂ with
    | nil => simp [leChars] at h1
    | cons d ds =>
      cases l₃ with
      | nil => simp [leChars] at h2
      | cons e es =>
        by_cases hcd : c.toNat = d.toNat
        · by_cases hde : d.toNat = e.toNat
          · have hce : c.toNat = e.toNat := hcd.trans hde
            simp only [leChars, if_pos hcd] at h1
            simp only [leChars, if_pos hde] at h2
            simp only [leChars, if_pos hce]
            exact ih ds es h1 h2
          · simp only [leChars, if_neg hde] at h2
            have h2' : d.toNat < e.toNat := of_decide_eq_true h2
            have hce : ¬ c.toNat = e.toNat := by omega
            simp only [leChars, if_neg hce]
            exact decide_eq_true_iff.mpr (by omega)
        · simp only [leChars, if_neg hcd] at h1
          have h1' : c.toNat < d.toNat := of_decide_eq_true h1
          by_cases hde : d.toNat = e.toNat
          · have hce : ¬ c.toNat = e.toNat := by omega
            simp only [leChars, if_neg hce]
            exact decide_eq_true_iff.mpr (by omega)
          · simp only [leChars, if_neg hde] at h2
            have h2' : d.toNat < e.toNat := of_decide_eq_true h2
            have hce : ¬ c.toNat = e.toNat := by omega
            simp only [leChars, if_neg hce]
            exact decide_eq_true_iff.mpr (by omega)

theorem leChars_antisymm : ∀ l₁ l₂ : List Char,
    leChars l₁ l₂ = true → leChars l₂ l₁ = true → l₁ = l₂ := by
  intro l₁
  induction l₁ with
  | nil =>
    intro l₂ _ h2
    cases l₂ with
    | nil => rfl
    | cons d ds => simp [leChars] at h2
  | cons c cs ih =>
    intro l₂ h1 h2
    cases l₂ with
    | nil => simp [leChars] at h1
    | cons d ds =>
      by_cases hcd : c.toNat = d.toNat
      · have hdc : d.toNat = c.toNat := hcd.symm
        simp only [leChars, if_pos hcd] at h1
        simp only [leChars, if_pos hdc] at h2
        rw [charToNat_inj hcd, ih ds h1 h2]
      · have hdc : ¬ d.toNat = c.toNat := fun he => hcd he.symm
        simp only [leChars, if_neg hcd] at h1
        simp only [leChars, if_neg hdc] at h2
        have := of_decide_eq_true h1
        have := of_decide_eq_true h2
        omega

theorem strLeB_total (a b : String) : strLeB a b = true ∨ strLeB b a = true :=
  leChars_total a.data b.data

theorem strLeB_trans {a b c : String} (h1 : strLeB a b = true) (h2 : strLeB b c = true) :
    strLeB a c = true :=
  leChars_trans a.data b.data c.data h1 h2

theorem strLeB_antisymm {a b : String} (h1 : strLeB a b = true) (h2 : strLeB b a = true) :
    a = b := by
  have := leChars_antisymm a.data b.data h1 h2
  cases a with
  | mk d1 =>
    cases b with
    | mk d2 => simp only at this; rw [this]

theorem insSorted_perm (s : String) (l : List String) : List.Perm (insSorted s l) (s :: l) := by
  induction l with
  | nil => simp [insSorted]
  | cons t ts ih =>
    by_cases h : strLeB s t = true
    · simp [insSorted, h]
    · simp only [insSorted, if_neg h]
      exact (ih.cons t).trans (List.Perm.swap s t ts)

theorem sortStrings_perm (l : List String) : List.Perm (sortStrings l) l := by
  induction l with
  | nil => simp [sortStrings]
  | cons s ss ih =>
    exact (insSorted_perm s (sortStrings ss)).trans (ih.cons s)

theorem mem_insSorted {a s : String} {l : List String} :
    a ∈ insSorted s l ↔ a = s ∨ a ∈ l := by
  have := (insSorted_perm s l).mem_iff (a := a)
  simpa using this

theorem sorted_insSorted {s : String} {l : List String}
    (h : l.Sorted (fun a b => strLeB a b = true)) :
    (insSorted s l).Sorted (fun a b => strLeB a b = true) := by
  induction l with
  | nil => simp [insSorted]
  | cons t ts ih =>
    rw [List.sorted_cons] at h
    by_cases hst : strLeB s t = true
    · rw [insSorted, if_pos hst, List.sorted_cons]
      refine ⟨?_, List.sorted_cons.mpr h⟩
      intro b hb
      rcases List.mem_cons.mp hb with rfl | hb
      · exact hst
      · exact strLeB_trans hst (h.1 b hb)
    · rw [insSorted, if_neg hst, List.sorted_cons]
      refine ⟨?_, ih h.2⟩
      intro b hb
      rcases mem_insSorted.mp hb with hb | hb
      · subst hb
        rcases strLeB_total t b with ht | ht
        · exact ht
        · exact absurd ht hst
      · exact h.1 b hb

theorem sorted_sortStrings (l : List String) :
    (sortStrings l).Sorted (fun a b => strLeB a b = true) := by
  induction l with
  | nil => simp [sortStrings]
  | cons s ss ih => exact sorted_insSorted ih

theorem sortStrings_eq_of_perm {l₁ l₂ : List String} (h : List.Perm l₁ l₂) :
    sortStrings l₁ = sortStrings l₂ := by
  haveI : IsAntisymm String (fun a b => strLeB a b = true) :=
    ⟨fun _ _ h1 h2 => strLeB_antisymm h1 h2⟩
  exact List.eq_of_perm_of_sorted
    ((sortStrings_perm l₁).trans (h.trans (sortStrings_perm l₂).symm))
    (sorted_sortStrings l₁) (sorted_sortStrings l₂)

theorem sortStrings_eq_self_of_sorted {l : List String}
    (h : l.Sorted (fun a b => strLeB a b = true)) :
    sortStrings l = l := by
  haveI : IsAntisymm String (fun a b => strLeB a b = true) :=
    ⟨fun _ _ h1 h2 => strLeB_antisymm h1 h2⟩
  exact List.eq_of_perm_of_sorted (sortStrings_perm l) (sorted_sortStrings l) h

theorem sortStrings_idem (l : List String) :
    sortStrings (sortStrings l) = sortStrings l :=
  sortStrings_eq_self_of_sorted (sorted_sortStrings l)

/-! ## Helper lemmas: dedupF -/

theorem mem_dedupFAux {a : String} :
    ∀ (l seen : List String), a ∈ dedupFAux seen l ↔ a ∈ l ∧ a ∉ seen := by
  intro l
  induction l with
  | nil => intro seen; simp [dedupFAux]
  | cons x xs ih =>
    intro seen
    by_cases h : x ∈ seen
    · rw [dedupFAux, if_pos h, ih]
      constructor
      · rintro ⟨h1, h2⟩; exact ⟨List.mem_cons_of_mem x h1, h2⟩
      · rintro ⟨h1, h2⟩
        rcases List.mem_cons.mp h1 with rfl | h1
        · exact absurd h h2
        · exact ⟨h1, h2⟩
    · rw [dedupFAux, if_neg h]
      constructor
      · intro hm
        rcases List.mem_cons.mp hm with rfl | hm
        · exact ⟨List.mem_cons_self a xs, h⟩
        · have := (ih (x :: seen)).mp hm
          refine ⟨List.mem_cons_of_mem x this.1, fun hs => this.2 (List.mem_cons_of_mem x hs)⟩
      · rintro ⟨h1, h2⟩
        rcases List.mem_cons.mp h1 with rfl | h1
        · exact List.mem_cons_self a _
        · by_cases hax : a = x
          · exact hax ▸ List.mem_cons_self x _
          · exact List.mem_cons_of_mem x ((ih (x :: seen)).mpr
              ⟨h1, fun hs => (List.mem_cons.mp hs).elim hax h2⟩)

theorem mem_dedupF {a : String} {l : List String} : a ∈ dedupF l ↔ a ∈ l := by
  rw [dedupF, mem_dedupFAux]; simp

theorem nodup_dedupFAux : ∀ (l seen : List String), (dedupFAux seen l).Nodup := by
  intro l
  induction l with
  | nil => intro seen; simp [dedupFAux]
  | cons x xs ih =>
    intro seen
    by_cases h : x ∈ seen
    · rw [dedupFAux, if_pos h]; exact ih seen
    · rw [dedupFAux, if_neg h]
      refine List.nodup_cons.mpr ⟨?_, ih (x :: seen)⟩
      intro hm
      exact ((mem_dedupFAux xs (x :: seen)).mp hm).2 (List.mem_cons_self x seen)

theorem nodup_dedupF (l : List String) : (dedupF l).Nodup := nodup_dedupFAux l []

/-! ## Helper lemmas: trimming -/

theorem head_dropWhile_false {p : Char → Bool} :
    ∀ {l : List Char} {c : Char}, (l.dropWhile p).head? = some c → p c = false := by
  intro l
  induction l with
  | nil => intro c h; simp [List.dropWhile] at h
  | cons x xs ih =>
    intro c h
    by_cases hp : p x
    · rw [List.dropWhile_cons, if_pos hp] at h; exact ih h
    · rw [List.dropWhile_cons, if_neg hp] at h
      simp only [List.head?_cons, Option.some.injEq] at h
      subst h
      exact Bool.eq_false_iff.mpr hp

theorem dropWhile_eq_self_of_head {p : Char → Bool} {l : List Char}
    (h : ∀ c, l.head? = some c → p c = false) : l.dropWhile p = l := by
  cases l with
  | nil => rfl
  | cons x xs =>
    rw [List.dropWhile_cons, if_neg]
    simp [h x rfl]

theorem getLast?_dropWhile {p : Char → Bool} :
    ∀ {l : List Char}, l.dropWhile p ≠ [] → (l.dropWhile p).getLast? = l.getLast? := by
  intro l
  induction l with
  | nil => intro h; simp [List.dropWhile] at h
  | cons x xs ih =>
    intro h
    by_cases hp : p x
    · rw [List.dropWhile_cons, if_pos hp] at h ⊢
      rw [ih h]
      have hxs : xs ≠ [] := by
        intro he; rw [he] at h; simp [List.dropWhile] at h
      cases xs with
      | nil => exact absurd rfl hxs
      | cons y ys => rw [List.getLast?_cons_cons]
    · rw [List.dropWhile_cons, if_neg hp]

theorem jsTrim_head {s : String} {c : Char} (h : (jsTrim s).data.head? = some c) :
    c.isWhitespace = false := by
  rw [jsTrim] at h
  rw [List.head?_reverse] at h
  have hne : (s.data.dropWhile Char.isWhitespace).reverse.dropWhile Char.isWhitespace ≠ [] := by
    intro he; rw [he] at h; simp at h
  rw [getLast?_dropWhile hne, List.getLast?_reverse] at h
  exact head_dropWhile_false h

theorem jsTrim_last {s : String} {c : Char} (h : (jsTrim s).data.getLast? = some c) :
    c.isWhitespace = false := by
  rw [jsTrim] at h
  rw [List.getLast?_reverse] at h
  exact head_dropWhile_false h

theorem jsTrim_idem (s : String) : jsTrim (jsTrim s) = jsTrim s := by
  have h1 : (jsTrim s).data.dropWhile Char.isWhitespace = (jsTrim s).data :=
    dropWhile_eq_self_of_head (fun c hc => jsTrim_head hc)
  have h2 : (jsTrim s).data.reverse.dropWhile Char.isWhitespace = (jsTrim s).data.reverse := by
    apply dropWhile_eq_self_of_head
    intro c hc
    rw [List.head?_reverse] at hc
    exact jsTrim_last hc
  show String.mk _ = jsTrim s
  rw [h1, h2, List.reverse_reverse]

theorem jsToLower_ne_empty {s : String} (h : s ≠ "") : jsToLower s ≠ "" := by
  intro he
  apply h
  have hd : (jsToLower s).data = s.data.map Char.toLower := rfl
  rw [he] at hd
  have : s.data = [] := by
    have := hd.symm
    simpa using this
  cases s with
  | mk d => simp only at this; rw [this]

/-! ## Helper lemmas: lookupLast and allIds -/

theorem lookupLast_id : ∀ {ts : List Task} {i : String} {t : Task},
    lookupLast ts i = some t → t.id = i := by
  intro ts
  induction ts with
  | nil => intro i t h; simp [lookupLast] at h
  | cons x xs ih =>
    intro i t h
    rw [lookupLast] at h
    cases hx : lookupLast xs i with
    | some r => rw [hx] at h; exact ih (hx.trans h)
    | none =>
      rw [hx] at h
      by_cases hid : x.id = i
      · rw [if_pos hid] at h
        cases h; exact hid
      · rw [if_neg hid] at h; cases h

theorem lookupLast_isSome_iff : ∀ {ts : List Task} {i : String},
    (lookupLast ts i).isSome = true ↔ i ∈ ts.map (·.id) := by
  intro ts
  induction ts with
  | nil => intro i; simp [lookupLast]
  | cons x xs ih =>
    intro i
    rw [lookupLast]
    cases hx : lookupLast xs i with
    | some r =>
      simp only [Option.isSome_some, true_iff]
      have : i ∈ xs.map (·.id) := ih.mp (by rw [hx]; rfl)
      exact List.mem_cons_of_mem _ this
    | none =>
      by_cases hid : x.id = i
      · simp [hid]
      · rw [if_neg hid]
        simp only [Option.isSome_none, Bool.false_eq_true, false_iff]
        intro hm
        rcases List.mem_cons.mp hm with hm | hm
        · exact hid hm.symm
        · have := ih.mpr hm
          rw [hx] at this
          simp at this

theorem mem_allIds {oldTasks newTasks : List Task} {i : String} :
    i ∈ allIds oldTasks newTasks ↔
      i ∈ oldTasks.map (·.id) ∨ i ∈ newTasks.map (·.id) := by
  rw [allIds, mem_dedupF, List.mem_append]

theorem nodup_allIds (oldTasks newTasks : List Task) : (allIds oldTasks newTasks).Nodup :=
  nodup_dedupF _

/-! ## Helper lemmas: the `jsonStable` encoding is uniquely decodable -/

theorem strEta (s : String) : String.mk s.data = s := by
  cases s; rfl

theorem scanQ_quote (rest : List Char) : scanQ ('"' :: rest) = some ([], rest) := by
  rw [scanQ.eq_def]; simp

theorem scanQ_esc (c : Char) (rest : List Char) :
    scanQ ('\\' :: c :: rest) =
      (match scanQ rest with
       | none => none
       | some (s, r) => some (c :: s, r)) := by
  rw [scanQ.eq_def]; simp

theorem scanQ_other {c : Char} (h1 : c ≠ '"') (h2 : c ≠ '\\') (rest : List Char) :
    scanQ (c :: rest) =
      (match scanQ rest with
       | none => none
       | some (s, r) => some (c :: s, r)) := by
  rw [scanQ.eq_def]; simp [h1, h2]

theorem scanQ_round : ∀ (s : List Char) (rest : List Char),
    scanQ (escChars s ++ '"' :: rest) = some (s, rest) := by
  intro s
  induction s with
  | nil => intro rest; exact scanQ_quote rest
  | cons c cs ih =>
    intro rest
    by_cases h : c = '"' ∨ c = '\\'
    · rw [escChars, if_pos h]
      simp only [List.cons_append]
      rw [scanQ_esc, ih]
    · push_neg at h
      rw [escChars, if_neg (by tauto)]
      simp only [List.cons_append]
      rw [scanQ_other h.1 h.2, ih]

theorem scanArr_close (fuel : Nat) (rest : List Char) :
    scanArr fuel (']' :: rest) = some ([], rest) := by
  rw [scanArr.eq_def]; simp

theorem scanArr_quote (fuel : Nat) (tail : List Char) :
    scanArr fuel ('"' :: tail) =
      (match scanQ tail with
       | none => none
       | some (s, r) =>
         match r with
         | [] => none
         | d :: r2 =>
           if d = ',' then
             match fuel with
             | 0 => none
             | fuel' + 1 =>
               match scanArr fuel' r2 with
               | none => none
               | some (xs, rr) => some (String.mk s :: xs, rr)
           else if d = ']' then some ([String.mk s], r2)
           else none) := by
  rw [scanArr.eq_def]; simp

theorem scanArr_round : ∀ (xs : List String) (fuel : Nat) (rest : List Char),
    xs.length ≤ fuel → scanArr fuel (arrBody xs ++ ']' :: rest) = some (xs, rest) := by
  intro xs
  induction xs with
  | nil => intro fuel rest _; exact scanArr_close fuel rest
  | cons x xs' ih =>
    intro fuel rest hf
    cases xs' with
    | nil =>
      simp only [arrBody, qEnc, List.cons_append, List.append_assoc]
      rw [scanArr_quote, scanQ_round]
      simp [strEta]
    | cons y ys =>
      cases fuel with
      | zero => simp at hf
      | succ f =>
        simp only [arrBody, qEnc, List.cons_append, List.append_assoc]
        rw [scanArr_quote, scanQ_round]
        simp only [List.nil_append, List.cons_append]
        rw [ih f rest (by simpa using Nat.le_of_succ_le_succ hf)]
        simp [strEta]

theorem scanVal_quote (fuel : Nat) (tail : List Char) :
    scanVal fuel ('"' :: tail) =
      (scanQ tail).map (fun p => (JVal.s (String.mk p.1), p.2)) := by
  rw [scanVal.eq_def]; simp

theorem scanVal_brack (fuel : Nat) (tail : List Char) :
    scanVal fuel ('[' :: tail) =
      (scanArr fuel tail).map (fun p => (JVal.arr p.1, p.2)) := by
  rw [scanVal.eq_def]; simp

theorem scanVal_round : ∀ (v : JVal) (fuel : Nat) (rest : List Char),
    mV v ≤ fuel → scanVal fuel (renderVal v ++ rest) = some (v, rest) := by
  intro v fuel rest hf
  cases v with
  | s w =>
    simp only [renderVal, qEnc, List.cons_append, List.append_assoc]
    rw [scanVal_quote, scanQ_round]
    simp [strEta]
  | arr xs =>
    simp only [renderVal, List.cons_append, List.append_assoc, List.nil_append]
    rw [scanVal_brack, scanArr_round xs fuel rest (by simpa [mV] using hf)]
    simp

theorem scanPieces_close (fuel : Nat) (rest : List Char) :
    scanPieces fuel ('}' :: rest) = some ([], rest) := by
  rw [scanPieces.eq_def]; simp

theorem scanPieces_quote (fuel : Nat) (tail : List Char) :
    scanPieces fuel ('"' :: tail) =
      (match scanQ tail with
       | none => none
       | some (k, r) =>
         match r with
         | [] => none
         | d :: r2 =>
           if d = ':' then
             match fuel with
             | 0 => none
             | f + 1 =>
               match scanVal f r2 with
               | none => none
               | some (v, r3) =>
                 match r3 with
                 | [] => none
                 | e :: r4 =>
                   if e = ',' then
                     match scanPieces f r4 with
                     | none => none
                     | some (ps, r5) => some ((String.mk k, v) :: ps, r5)
                   else if e = '}' then some ([(String.mk k, v)], r4)
                   else none
           else none) := by
  rw [scanPieces.eq_def]; simp

theorem scanPieces_round : ∀ (ps : List (String × JVal)) (fuel : Nat) (rest : List Char),
    msr ps ≤ fuel → scanPieces fuel (piecesBody ps ++ '}' :: rest) = some (ps, rest) := by
  intro ps
  induction ps with
  | nil => intro fuel rest _; exact scanPieces_close fuel rest
  | cons p ps' ih =>
    intro fuel rest hf
    have hmv : 1 + mV p.2 + msr ps' ≤ fuel := by simpa [msr] using hf
    cases fuel with
    | zero => omega
    | succ f =>
      cases ps' with
      | nil =>
        simp only [piecesBody, qEnc, List.cons_append, List.append_assoc]
        rw [scanPieces_quote, scanQ_round]
        simp only [List.nil_append, List.cons_append]
        rw [scanVal_round p.2 f ('}' :: rest) (by omega)]
        simp [strEta]
      | cons q qs =>
        simp only [piecesBody, qEnc, List.cons_append, List.append_assoc]
        rw [scanPieces_quote, scanQ_round]
        simp only [List.nil_append, List.cons_append]
        rw [scanVal_round p.2 f (',' :: (piecesBody (q :: qs) ++ '}' :: rest)) (by omega)]
        simp only []
        rw [ih f rest (by simp [msr] at hmv ⊢; omega)]
        simp [strEta]

theorem renderVal_inj {v₁ v₂ : JVal} (h : renderVal v₁ = renderVal v₂) : v₁ = v₂ := by
  have h1 := scanVal_round v₁ (mV v₁ + mV v₂) [] (Nat.le_add_right _ _)
  have h2 := scanVal_round v₂ (mV v₁ + mV v₂) [] (Nat.le_add_left _ _)
  rw [h] at h1
  rw [h1] at h2
  simpa using h2

theorem jsonStableF_map_canon (a : Option JVal) :
    jsonStableF a = (a.map canonVal).map (fun w => String.mk (renderVal w)) := by
  cases a <;> rfl

theorem canonVal_idem (v : JVal) : canonVal (canonVal v) = canonVal v := by
  cases v with
  | s w => rfl
  | arr xs => simp [canonVal, sortStrings_idem]

theorem jsonStableF_eq_iff {a b : Option JVal} :
    jsonStableF a = jsonStableF b ↔ a.map canonVal = b.map canonVal := by
  constructor
  · intro h
    cases a with
    | none =>
      cases b with
      | none => rfl
      | some y => simp [jsonStableF] at h
    | some x =>
      cases b with
      | none => simp [jsonStableF] at h
      | some y =>
        have e1 : jsonStableF (some x) = some (String.mk (renderVal (canonVal x))) := rfl
        have e2 : jsonStableF (some y) = some (String.mk (renderVal (canonVal y))) := rfl
        rw [e1, e2] at h
        have h' := Option.some.inj h
        have hrv : renderVal (canonVal x) = renderVal (canonVal y) := congrArg String.data h'
        simp [renderVal_inj hrv]
  · intro h
    rw [jsonStableF_map_canon, jsonStableF_map_canon, h]

theorem filterMap_cons_toList {α β : Type} (f : α → Option β) (a : α) (l : List α) :
    List.filterMap f (a :: l) = (f a).toList ++ List.filterMap f l := by
  cases h : f a <;> simp [List.filterMap_cons, h]

theorem piecesOf_explicit (o : NormObj) :
    piecesOf o =
      ((o.status.map JVal.s).map (fun v => ("status", canonVal v))).toList ++
      (((o.title.map JVal.s).map (fun v => ("title", canonVal v))).toList ++
      (((o.description.map JVal.s).map (fun v => ("description", canonVal v))).toList ++
      (((o.deadline.map JVal.s).map (fun v => ("deadline", canonVal v))).toList ++
      (((o.links.map jvalOfLinks).map (fun v => ("links", canonVal v))).toList ++
      (((o.assignedTo.map JVal.arr).map (fun v => ("assignedTo", canonVal v))).toList ++
      ([] : List (String × JVal))))))) := by
  rw [piecesOf, WATCH_FIELDS]
  rw [filterMap_cons_toList, filterMap_cons_toList, filterMap_cons_toList,
      filterMap_cons_toList, filterMap_cons_toList, filterMap_cons_toList]
  simp [getNormField]

theorem plook_toList_ne {k k' : String} (h : k' ≠ k) (O : Option JVal) (g : JVal → JVal)
    (rest : List (String × JVal)) :
    plook k ((O.map (fun v => (k', g v))).toList ++ rest) = plook k rest := by
  cases O <;> simp [plook, h]

theorem plook_toList_eq (k : String) (O : Option JVal) (g : JVal → JVal)
    (rest : List (String × JVal)) :
    plook k ((O.map (fun v => (k, g v))).toList ++ rest) =
      (match O with
       | some v => some (g v)
       | none => plook k rest) := by
  cases O <;> simp [plook]

theorem plook_nil (k : String) : plook k [] = none := rfl

theorem plook_status (o : NormObj) :
    plook "status" (piecesOf o) = (o.status.map JVal.s).map canonVal := by
  rw [piecesOf_explicit, plook_toList_eq]
  cases o.status with
  | none =>
    simp only [Option.map_none']
    rw [plook_toList_ne (by decide), plook_toList_ne (by decide),
        plook_toList_ne (by decide), plook_toList_ne (by decide),
        plook_toList_ne (by decide), plook_nil]
  | some v => rfl

theorem plook_title (o : NormObj) :
    plook "title" (piecesOf o) = (o.title.map JVal.s).map canonVal := by
  rw [piecesOf_explicit, plook_toList_ne (by decide), plook_toList_eq]
  cases o.title with
  | none =>
    simp only [Option.map_none']
    rw [plook_toList_ne (by decide), plook_toList_ne (by decide),
        plook_toList_ne (by decide), plook_toList_ne (by decide), plook_nil]
  | some v => rfl

theorem plook_description (o : NormObj) :
    plook "description" (piecesOf o) = (o.description.map JVal.s).map canonVal := by
  rw [piecesOf_explicit, plook_toList_ne (by decide), plook_toList_ne (by decide),
      plook_toList_eq]
  cases o.description with
  | none =>
    simp only [Option.map_none']
    rw [plook_toList_ne (by decide), plook_toList_ne (by decide),
        plook_toList_ne (by decide), plook_nil]
  | some v => rfl

theorem plook_deadline (o : NormObj) :
    plook "deadline" (piecesOf o) = (o.deadline.map JVal.s).map canonVal := by
  rw [piecesOf_explicit, plook_toList_ne (by decide), plook_toList_ne (by decide),
      plook_toList_ne (by decide), plook_toList_eq]
  cases o.deadline with
  | none =>
    simp only [Option.map_none']
    rw [plook_toList_ne (by decide), plook_toList_ne (by decide), plook_nil]
  | some v => rfl

theorem plook_links (o : NormObj) :
    plook "links" (piecesOf o) = (o.links.map jvalOfLinks).map canonVal := by
  rw [piecesOf_explicit, plook_toList_ne (by decide), plook_toList_ne (by decide),
      plook_toList_ne (by decide), plook_toList_ne (by decide), plook_toList_eq]
  cases o.links with
  | none =>
    simp only [Option.map_none']
    rw [plook_toList_ne (by decide), plook_nil]
  | some v => rfl

theorem plook_assignedTo (o : NormObj) :
    plook "assignedTo" (piecesOf o) = (o.assignedTo.map JVal.arr).map canonVal := by
  rw [piecesOf_explicit, plook_toList_ne (by decide), plook_toList_ne (by decide),
      plook_toList_ne (by decide), plook_toList_ne (by decide), plook_toList_ne (by decide),
      plook_toList_eq]
  cases o.assignedTo with
  | none => simp only [Option.map_none']; rw [plook_nil]
  | some v => rfl

theorem piecesOf_canonObj (o : NormObj) : piecesOf (canonObj o) = piecesOf o := by
  rw [piecesOf_explicit, piecesOf_explicit]
  rcases o with ⟨st, ti, de, dl, li, asg⟩
  simp only [canonObj]
  rcases li with _ | (v | lv) <;> cases asg <;>
    simp [canonLinks, canonVal, jvalOfLinks, sortStrings_idem]

theorem recObj_piecesOf (o : NormObj) : recObj (piecesOf o) = canonObj o := by
  rw [recObj, plook_status, plook_title, plook_description, plook_deadline,
      plook_links, plook_assignedTo]
  rcases o with ⟨st, ti, de, dl, li, asg⟩
  cases st <;> cases ti <;> cases de <;> cases dl <;>
    rcases li with _ | (v | lv) <;> cases asg <;> rfl

theorem jsonStableObj_eq_iff {o₁ o₂ : NormObj} :
    jsonStableObj o₁ = jsonStableObj o₂ ↔ canonObj o₁ = canonObj o₂ := by
  constructor
  · intro h
    have hd : '{' :: (piecesBody (piecesOf o₁) ++ ['}']) =
        '{' :: (piecesBody (piecesOf o₂) ++ ['}']) := congrArg String.data h
    have hb : piecesBody (piecesOf o₁) ++ '}' :: [] =
        piecesBody (piecesOf o₂) ++ '}' :: [] := by
      simpa using List.cons.inj hd |>.2
    have r1 := scanPieces_round (piecesOf o₁) (msr (piecesOf o₁) + msr (piecesOf o₂)) []
      (Nat.le_add_right _ _)
    have r2 := scanPieces_round (piecesOf o₂) (msr (piecesOf o₁) + msr (piecesOf o₂)) []
      (Nat.le_add_left _ _)
    rw [hb] at r1
    rw [r1] at r2
    have hps : piecesOf o₁ = piecesOf o₂ := congrArg Prod.fst (Option.some.inj r2)
    rw [← recObj_piecesOf o₁, ← recObj_piecesOf o₂, hps]
  · intro h
    have : piecesOf o₁ = piecesOf o₂ := by
      rw [← piecesOf_canonObj o₁, ← piecesOf_canonObj o₂, h]
    rw [jsonStableObj, jsonStableObj, this]

/-! ## Helper lemmas: the Differ -/

theorem mkChange_id {oldT newT : List Task} {i : String} {ev : Change}
    (h : mkChange oldT newT i = some ev) : ev.id = i := by
  rw [mkChange] at h
  cases hb : lookupLast oldT i <;> cases ha : lookupLast newT i <;>
    rw [hb, ha] at h <;> simp only [] at h
  · cases h
  · cases h; rfl
  · cases h; rfl
  · split at h
    · cases h; rfl
    · cases h

theorem mkChange_created {oldT newT : List Task} {i : String} {a : Task}
    (hb : lookupLast oldT i = none) (ha : lookupLast newT i = some a) :
    mkChange oldT newT i = some ⟨.created, i, none, some a, recipientsOf none (some a)⟩ := by
  rw [mkChange, hb, ha]

theorem mkChange_deleted {oldT newT : List Task} {i : String} {b : Task}
    (hb : lookupLast oldT i = some b) (ha : lookupLast newT i = none) :
    mkChange oldT newT i = some ⟨.deleted, i, some b, none, recipientsOf (some b) none⟩ := by
  rw [mkChange, hb, ha]

theorem mkChange_both {oldT newT : List Task} {i : String} {b a : Task}
    (hb : lookupLast oldT i = some b) (ha : lookupLast newT i = some a) :
    mkChange oldT newT i =
      (if jsonStableObj (normalizeTask (some b)) ≠ jsonStableObj (normalizeTask (some a)) then
        some ⟨.updated, i, some b, some a, recipientsOf (some b) (some a)⟩
      else none) := by
  rw [mkChange, hb, ha]

theorem find_filterMap_not_mem (mk : String → Option Change)
    (hmk : ∀ j ev, mk j = some ev → ev.id = j) :
    ∀ (ids : List String) (i : String), i ∉ ids →
      (ids.filterMap mk).find? (fun ev => ev.id == i) = none := by
  intro ids
  induction ids with
  | nil => intro i _; rfl
  | cons j js ih =>
    intro i hi
    have hij : i ≠ j := fun he => hi (he ▸ List.mem_cons_self j js)
    have hijs : i ∉ js := fun hm => hi (List.mem_cons_of_mem j hm)
    rw [List.filterMap_cons]
    cases hj : mk j with
    | none => exact ih i hijs
    | some ev =>
      rw [List.find?_cons]
      have hevid : ev.id = j := hmk j ev hj
      have : (ev.id == i) = false := by
        rw [hevid]; exact beq_false_of_ne (Ne.symm hij)
      rw [this]
      exact ih i hijs

theorem find_filterMap_mem (mk : String → Option Change)
    (hmk : ∀ j ev, mk j = some ev → ev.id = j) :
    ∀ (ids : List String), ids.Nodup → ∀ i ∈ ids,
      (ids.filterMap mk).find? (fun ev => ev.id == i) = mk i := by
  intro ids
  induction ids with
  | nil => intro _ i hi; cases hi
  | cons j js ih =>
    intro hnd i hi
    have hnd' := List.nodup_cons.mp hnd
    rw [List.filterMap_cons]
    cases hj : mk j with
    | none =>
      rcases List.mem_cons.mp hi with rfl | hi'
      · rw [find_filterMap_not_mem mk hmk js i hnd'.1, hj]
      · exact ih hnd'.2 i hi'
    | some ev =>
      rw [List.find?_cons]
      have hevid : ev.id = j := hmk j ev hj
      rcases List.mem_cons.mp hi with rfl | hi'
      · rw [hevid, beq_self_eq_true]
        exact hj.symm
      · have hij : i ≠ j := fun he => hnd'.1 (he ▸ hi')
        have : (ev.id == i) = false := by
          rw [hevid]; exact beq_false_of_ne (Ne.symm hij)
        rw [this]
        exact ih hnd'.2 i hi'

theorem countP_filterMap_not_mem (mk : String → Option Change)
    (hmk : ∀ j ev, mk j = some ev → ev.id = j) :
    ∀ (ids : List String) (i : String), i ∉ ids →
      (ids.filterMap mk).countP (fun ev => ev.id == i) = 0 := by
  intro ids
  induction ids with
  | nil => intro i _; rfl
  | cons j js ih =>
    intro i hi
    have hij : i ≠ j := fun he => hi (he ▸ List.mem_cons_self j js)
    have hijs : i ∉ js := fun hm => hi (List.mem_cons_of_mem j hm)
    rw [List.filterMap_cons]
    cases hj : mk j with
    | none => exact ih i hijs
    | some ev =>
      rw [List.countP_cons]
      have hevid : ev.id = j := hmk j ev hj
      have : (ev.id == i) = false := by
        rw [hevid]; exact beq_false_of_ne (Ne.symm hij)
      rw [this]
      simp [ih i hijs]

theorem countP_filterMap_mem (mk : String → Option Change)
    (hmk : ∀ j ev, mk j = some ev → ev.id = j) :
    ∀ (ids : List String), ids.Nodup → ∀ i ∈ ids,
      (ids.filterMap mk).countP (fun ev => ev.id == i) =
        (match mk i with | some _ => 1 | none => 0) := by
  intro ids
  induction ids with
  | nil => intro _ i hi; cases hi
  | cons j js ih =>
    intro hnd i hi
    have hnd' := List.nodup_cons.mp hnd
    rw [List.filterMap_cons]
    cases hj : mk j with
    | none =>
      rcases List.mem_cons.mp hi with rfl | hi'
      · rw [countP_filterMap_not_mem mk hmk js i hnd'.1, hj]
      · exact ih hnd'.2 i hi'
    | some ev =>
      rw [List.countP_cons]
      have hevid : ev.id = j := hmk j ev hj
      rcases List.mem_cons.mp hi with rfl | hi'
      · rw [hevid, beq_self_eq_true, if_pos rfl, countP_filterMap_not_mem mk hmk js i hnd'.1, hj]
      · have hij : i ≠ j := fun he => hnd'.1 (he ▸ hi')
        have : (ev.id == i) = false := by
          rw [hevid]; exact beq_false_of_ne (Ne.symm hij)
        rw [this]
        simp [ih hnd'.2 i hi']

theorem no_event_of_mk_none {oldT newT : List Task} {i : String}
    (hi : mkChange oldT newT i = none) :
    ∀ ev ∈ diffTasks oldT newT, ev.id ≠ i := by
  intro ev hev heq
  rcases List.mem_filterMap.mp hev with ⟨j, _, hmkj⟩
  have hj : ev.id = j := mkChange_id hmkj
  rw [heq] at hj
  rw [← hj] at hmkj
  rw [hi] at hmkj
  cases hmkj

theorem mem_recipientsOf {b a : Option Task} {n : String} :
    n ∈ recipientsOf b a ↔ n ∈ assignedOf b ∨ n ∈ assignedOf a := by
  simp [recipientsOf, mem_dedupF]

theorem jsonStable_eq_iff_canonRecord {b a : Option Task} :
    jsonStableObj (normalizeTask b) = jsonStableObj (normalizeTask a) ↔
      canonRecord b = canonRecord a :=
  jsonStableObj_eq_iff

theorem changedFields_eq (b a : Option Task) :
    changedFields b a =
      WATCH_FIELDS.filter (fun f =>
        decide ((getNormField (normalizeTask b) f).map canonVal ≠
                (getNormField (normalizeTask a) f).map canonVal)) := by
  apply List.filter_congr
  intro f _
  exact decide_eq_decide.mpr (not_congr jsonStableF_eq_iff)

theorem diff_nil_help (A B : List Task)
    (h1 : ∀ i ∈ A.map (·.id) ++ B.map (·.id),
      (lookupLast A i).isSome = (lookupLast B i).isSome)
    (h2 : ∀ i ∈ A.map (·.id) ++ B.map (·.id),
      canonRecord (lookupLast A i) = canonRecord (lookupLast B i)) :
    diffTasks A B = [] := by
  rw [diffTasks]
  rw [List.filterMap_eq_nil_iff]
  intro i hi
  have hi' : i ∈ A.map (·.id) ++ B.map (·.id) := by
    rw [allIds] at hi
    exact mem_dedupF.mp hi
  cases hA : lookupLast A i with
  | none =>
    cases hB : lookupLast B i with
    | none => rw [mkChange, hA, hB]
    | some a =>
      have := h1 i hi'
      rw [hA, hB] at this
      simp at this
  | some b =>
    cases hB : lookupLast B i with
    | none =>
      have := h1 i hi'
      rw [hA, hB] at this
      simp at this
    | some a =>
      have hc := h2 i hi'
      rw [hA, hB] at hc
      rw [mkChange_both hA hB, if_neg]
      exact not_not.mpr (jsonStable_eq_iff_canonRecord.mpr hc)

/-! ## Claims C4 to C7 -/

/-- C4: for every task identifier present in both snapshots (as the
id-keyed maps resolve them, last occurrence winning), the diff emits an
Updated event for that identifier iff the two canonical normalized
records differ; any such event is Updated with the two tasks attached,
its recipients are exactly the union of the old and new assignee sets,
and the field deltas its digest block lists are exactly the watched
fields whose canonical normalized values differ. -/
theorem updated_iff_normalized_differs (oldT newT : List Task) (i : String) (b a : Task)
    (hb : lookupLast oldT i = some b) (ha : lookupLast newT i = some a) :
    ((∃ ev, ev ∈ diffTasks oldT newT ∧ ev.id = i ∧ ev.type = CType.updated) ↔
        canonRecord (some b) ≠ canonRecord (some a))
    ∧ (∀ ev, ev ∈ diffTasks oldT newT → ev.id = i →
        ev.type = CType.updated ∧ ev.before = some b ∧ ev.after = some a ∧
        (∀ n, n ∈ ev.recipients ↔ n ∈ assignedOf (some b) ∨ n ∈ assignedOf (some a)) ∧
        changedFields ev.before ev.after =
          WATCH_FIELDS.filter (fun f =>
            decide ((getNormField (normalizeTask (some b)) f).map canonVal ≠
                    (getNormField (normalizeTask (some a)) f).map canonVal))) := by
  have hiA : i ∈ oldT.map (·.id) := lookupLast_isSome_iff.mp (by rw [hb]; rfl)
  have hiAll : i ∈ allIds oldT newT := mem_allIds.mpr (Or.inl hiA)
  have hmm := mkChange_both hb ha
  constructor
  · constructor
    · rintro ⟨ev, hev, hid, -⟩
      rcases List.mem_filterMap.mp hev with ⟨j, -, hmkj⟩
      have hj := mkChange_id hmkj
      have hji : j = i := by rw [← hj, hid]
      rw [hji, hmm] at hmkj
      by_cases hne : jsonStableObj (normalizeTask (some b)) ≠ jsonStableObj (normalizeTask (some a))
      · exact fun hcan => hne (jsonStable_eq_iff_canonRecord.mpr hcan)
      · rw [if_neg hne] at hmkj; cases hmkj
    · intro hcan
      have hne : jsonStableObj (normalizeTask (some b)) ≠ jsonStableObj (normalizeTask (some a)) :=
        fun hs => hcan (jsonStable_eq_iff_canonRecord.mp hs)
      refine ⟨⟨CType.updated, i, some b, some a, recipientsOf (some b) (some a)⟩, ?_, rfl, rfl⟩
      exact List.mem_filterMap.mpr ⟨i, hiAll, by rw [hmm, if_pos hne]⟩
  · intro ev hev hid
    rcases List.mem_filterMap.mp hev with ⟨j, -, hmkj⟩
    have hj := mkChange_id hmkj
    have hji : j = i := by rw [← hj, hid]
    rw [hji, hmm] at hmkj
    by_cases hne : jsonStableObj (normalizeTask (some b)) ≠ jsonStableObj (normalizeTask (some a))
    · rw [if_pos hne] at hmkj
      cases hmkj
      refine ⟨rfl, rfl, rfl, ?_, changedFields_eq _ _⟩
      intro n
      exact mem_recipientsOf
    · rw [if_neg hne] at hmkj; cases hmkj

/-- Witness for C4: the spec's concrete status change scenario produces
an Updated event for id `"1"`. -/
theorem updated_iff_normalized_differs_witness :
    ∃ ev, ev ∈ diffTasks [mkTask "1" (some "todo")] [mkTask "1" (some "done")] ∧
      ev.id = "1" ∧ ev.type = CType.updated :=
  (updated_iff_normalized_differs [mkTask "1" (some "todo")] [mkTask "1" (some "done")]
    "1" (mkTask "1" (some "todo")) (mkTask "1" (some "done"))
    (by decide) (by decide)).1.mpr (by decide)

/-- C5: two task lists whose id-keyed lookups are present for the same
identifiers and normalize to identical canonical records produce an
empty diff; in particular `diff(A, A)` is always empty. -/
theorem diff_identical_normalization (A B : List Task)
    (h1 : ∀ i ∈ A.map (·.id) ++ B.map (·.id),
      (lookupLast A i).isSome = (lookupLast B i).isSome)
    (h2 : ∀ i ∈ A.map (·.id) ++ B.map (·.id),
      canonRecord (lookupLast A i) = canonRecord (lookupLast B i)) :
    diffTasks A B = [] ∧ diffTasks A A = [] :=
  ⟨diff_nil_help A B h1 h2, diff_nil_help A A (fun _ _ => rfl) (fun _ _ => rfl)⟩

/-- Witness for C5: two singleton lists that differ only in link order
normalize identically, so both diffs are empty. -/
theorem diff_identical_normalization_witness :
    diffTasks [twA] [twB] = [] ∧ diffTasks [twA] [twA] = [] :=
  diff_identical_normalization [twA] [twB] (by decide) (by decide)

/-- C6: a task present in both snapshots whose `links` list is merely a
permutation (all other watched fields unchanged, unwatched fields
arbitrary) produces no event for its identifier. -/
theorem links_reorder_no_event (oldT newT : List Task) (i : String) (b a : Task)
    (hb : lookupLast oldT i = some b) (ha : lookupLast newT i = some a)
    (l l' : List String) (hbl : b.links = some (.l l)) (hal : a.links = some (.l l'))
    (hperm : List.Perm l l')
    (h1 : b.status = a.status) (h2 : b.title = a.title) (h3 : b.description = a.description)
    (h4 : b.deadline = a.deadline) (h5 : b.assignedTo = a.assignedTo) :
    ∀ ev ∈ diffTasks oldT newT, ev.id ≠ i := by
  have hcanon : canonRecord (some b) = canonRecord (some a) := by
    simp [canonRecord, canonObj, normalizeTask, hbl, hal, h1, h2, h3, h4, h5, canonLinks,
      sortStrings_eq_of_perm hperm]
  have hstr := jsonStable_eq_iff_canonRecord.mpr hcanon
  have hmk : mkChange oldT newT i = none := by
    rw [mkChange_both hb ha, if_neg (not_not.mpr hstr)]
  exact no_event_of_mk_none hmk

/-- Witness for C6: reordering `["b", "a"]` to `["a", "b"]` yields no
event for id `"1"`. -/
theorem links_reorder_no_event_witness :
    (diffTasks [twA] [twB]).countP (fun ev => ev.id == "1") = 0 :=
  List.countP_eq_zero.mpr (fun ev hev => by
    have := links_reorder_no_event [twA] [twB] "1" twA twB (by decide) (by decide)
      ["b", "a"] ["a", "b"] (by decide) (by decide) (by decide) (by decide)
      (by decide) (by decide) (by decide) (by decide) ev hev
    simpa using this)

/-- C7: an identifier present only in the new snapshot yields exactly
one event — a Created event whose recipients are the new task's
assignees; an identifier present only in the old snapshot yields
exactly one Deleted event whose recipients are the old task's
assignees. -/
theorem created_deleted_exactly_one (oldT newT : List Task) (i : String) :
    (∀ a : Task, lookupLast oldT i = none → lookupLast newT i = some a →
      (diffTasks oldT newT).countP (fun ev => ev.id == i) = 1 ∧
      (diffTasks oldT newT).find? (fun ev => ev.id == i) =
        some ⟨CType.created, i, none, some a, recipientsOf none (some a)⟩ ∧
      (∀ n, n ∈ recipientsOf none (some a) ↔ n ∈ assignedOf (some a)))
    ∧ (∀ b : Task, lookupLast newT i = none → lookupLast oldT i = some b →
      (diffTasks oldT newT).countP (fun ev => ev.id == i) = 1 ∧
      (diffTasks oldT newT).find? (fun ev => ev.id == i) =
        some ⟨CType.deleted, i, some b, none, recipientsOf (some b) none⟩ ∧
      (∀ n, n ∈ recipientsOf (some b) none ↔ n ∈ assignedOf (some b))) := by
  constructor
  · intro a hb ha
    have hiN : i ∈ newT.map (·.id) := lookupLast_isSome_iff.mp (by rw [ha]; rfl)
    have hiAll : i ∈ allIds oldT newT := mem_allIds.mpr (Or.inr hiN)
    have hmk := mkChange_created hb ha
    refine ⟨?_, ?_, ?_⟩
    · rw [diffTasks, countP_filterMap_mem _ (fun _ _ h => mkChange_id h) _
        (nodup_allIds _ _) i hiAll, hmk]
    · rw [diffTasks, find_filterMap_mem _ (fun _ _ h => mkChange_id h) _
        (nodup_allIds _ _) i hiAll, hmk]
    · intro n
      rw [mem_recipientsOf]
      simp [assignedOf]
  · intro b ha hb
    have hiO : i ∈ oldT.map (·.id) := lookupLast_isSome_iff.mp (by rw [hb]; rfl)
    have hiAll : i ∈ allIds oldT newT := mem_allIds.mpr (Or.inl hiO)
    have hmk := mkChange_deleted hb ha
    refine ⟨?_, ?_, ?_⟩
    · rw [diffTasks, countP_filterMap_mem _ (fun _ _ h => mkChange_id h) _
        (nodup_allIds _ _) i hiAll, hmk]
    · rw [diffTasks, find_filterMap_mem _ (fun _ _ h => mkChange_id h) _
        (nodup_allIds _ _) i hiAll, hmk]
    · intro n
      rw [mem_recipientsOf]
      simp [assignedOf]

/-- Witness for C7: the "Ship it" task appearing only in the new
snapshot yields exactly one Created event for Bob and Cara, and the
same task disappearing yields exactly one Deleted event. -/
theorem created_deleted_exactly_one_witness :
    ((diffTasks [] [twC]).countP (fun ev => ev.id == "2") = 1 ∧
     (diffTasks [] [twC]).find? (fun ev => ev.id == "2") =
       some ⟨CType.created, "2", none, some twC, recipientsOf none (some twC)⟩ ∧
     (∀ n, n ∈ recipientsOf none (some twC) ↔ n ∈ assignedOf (some twC)))
    ∧ ((diffTasks [twC] []).countP (fun ev => ev.id == "2") = 1 ∧
     (diffTasks [twC] []).find? (fun ev => ev.id == "2") =
       some ⟨CType.deleted, "2", some twC, none, recipientsOf (some twC) none⟩ ∧
     (∀ n, n ∈ recipientsOf (some twC) none ↔ n ∈ assignedOf (some twC))) :=
  ⟨(created_deleted_exactly_one [] [twC] "2").1 twC (by decide) (by decide),
   (created_deleted_exactly_one [twC] [] "2").2 twC (by decide) (by decide)⟩

/-! ## Helper lemmas: the Debounce Aggregator -/

theorem plookup_pdelete : ∀ (m : Pending) (k : String), plookup (pdelete m k) k = none := by
  intro m k
  induction m with
  | nil => rfl
  | cons p rest ih =>
    by_cases h : p.1 = k <;>
      simpa [pdelete, List.filter_cons, plookup, h] using ih

theorem fireDue_not_due (cfg : Config) (ok : Bool) (t : Nat) (em : String) (e : QEntry)
    (L : List MailRec) (h : ¬ e.timerAt ≤ t) :
    fireDue cfg ok t ⟨[(em, e)], L⟩ = ⟨[(em, e)], L⟩ := by
  rw [fireDue]
  have hdk : dueKeys [(em, e)] t = [] := by
    simp [dueKeys, List.filter_cons, h]
  rw [hdk]
  rfl

theorem fireDue_due_single (cfg : Config) (ok : Bool) (t : Nat) (em : String) (e : QEntry)
    (L : List MailRec) (h : e.timerAt ≤ t) (hsm : cfg.smtpConfigured = true) :
    fireDue cfg ok t ⟨[(em, e)], L⟩ = ⟨[], L ++ [⟨em, e.changes, e.timerAt, ok⟩]⟩ := by
  rw [fireDue]
  have hdk : dueKeys [(em, e)] t = [em] := by
    simp [dueKeys, List.filter_cons, h]
  rw [hdk]
  show sendDebouncedMail cfg ok em ⟨[(em, e)], L⟩ = _
  simp [sendDebouncedMail, plookup, pdelete, List.filter_cons, hsm]

theorem runQ_fold (cfg : Config) (ok : Bool) (em : String) (hem : em ≠ "") :
    ∀ (evs : List EnqEv), (∀ ev ∈ evs, ev.rEmail = em) →
    ∀ (prevT : Nat), timesOK cfg prevT evs = true →
    ∀ (nm eN eE : String) (acc : List Change) (L : List MailRec),
    evs.foldl (stepQ cfg ok) ⟨[(em, ⟨nm, acc, prevT + cfg.D, eN, eE⟩)], L⟩ =
      ⟨[(em, ⟨nm, acc ++ (evs.map (·.changes)).flatten,
          (evs.foldl (fun _ e => e.t) prevT) + cfg.D,
          foldEditor eN evs (·.eName), foldEditor eE evs (·.eEmail)⟩)], L⟩ := by
  intro evs
  induction evs with
  | nil =>
    intro _ prevT _ nm eN eE acc L
    simp [foldEditor]
  | cons e es ih =>
    intro hto prevT ht nm eN eE acc L
    have hte : e.rEmail = em := hto e (List.mem_cons_self e es)
    have htr : ∀ ev ∈ es, ev.rEmail = em := fun ev hv => hto ev (List.mem_cons_of_mem e hv)
    rw [timesOK, Bool.and_eq_true, Bool.and_eq_true] at ht
    obtain ⟨⟨h1, h2⟩, h3⟩ := ht
    have h2' : e.t < prevT + cfg.D := of_decide_eq_true h2
    rw [List.foldl_cons]
    have hfire : fireDue cfg ok e.t ⟨[(em, ⟨nm, acc, prevT + cfg.D, eN, eE⟩)], L⟩ =
        ⟨[(em, ⟨nm, acc, prevT + cfg.D, eN, eE⟩)], L⟩ :=
      fireDue_not_due cfg ok e.t em _ L (by simp; omega)
    have hstep : stepQ cfg ok ⟨[(em, ⟨nm, acc, prevT + cfg.D, eN, eE⟩)], L⟩ e =
        ⟨[(em, ⟨nm, acc ++ e.changes, e.t + cfg.D,
            if e.eName ≠ "" then e.eName else eN,
            if e.eEmail ≠ "" then e.eEmail else eE⟩)], L⟩ := by
      simp only [stepQ, hfire]
      rw [hte, queueMail, if_neg hem]
      have hpl : plookup [(em, (⟨nm, acc, prevT + cfg.D, eN, eE⟩ : QEntry))] em =
          some ⟨nm, acc, prevT + cfg.D, eN, eE⟩ := by
        simp [plookup]
      rw [hpl]
      simp [pset]
    rw [hstep, ih htr e.t h3]
    simp [foldEditor, List.append_assoc]

/-- C1 (amended, part_000 `queueMail` path): starting idle, a burst of
requests for one (truthy) recipient in which every request arrives
strictly less than `D` after the previous one — each cancelling and
rescheduling the pending flush — produces, once the clock passes the
last arrival plus `D`, exactly one Mailer invocation, carrying all the
buffered events in arrival order, fired exactly `D` after the last
request; the pending table is empty afterwards. -/
theorem queueMail_sliding_window (cfg : Config) (ok : Bool) (em : String)
    (hem : em ≠ "") (hsm : cfg.smtpConfigured = true)
    (e0 : EnqEv) (rest : List EnqEv)
    (hto : ∀ ev ∈ e0 :: rest, ev.rEmail = em)
    (ht : timesOK cfg e0.t rest = true)
    (horizon : Nat) (hhor : lastTime e0 rest + cfg.D ≤ horizon) :
    (runQ cfg ok (e0 :: rest) horizon).sent =
      [⟨em, ((e0 :: rest).map (·.changes)).flatten, lastTime e0 rest + cfg.D, ok⟩]
    ∧ (runQ cfg ok (e0 :: rest) horizon).pending = [] := by
  rw [runQ, List.foldl_cons]
  have hte : e0.rEmail = em := hto e0 (List.mem_cons_self _ _)
  have hstep0 : stepQ cfg ok ⟨[], []⟩ e0 =
      ⟨[(em, ⟨e0.rName, e0.changes, e0.t + cfg.D, e0.eName, e0.eEmail⟩)], []⟩ := by
    simp only [stepQ]
    have hfire0 : fireDue cfg ok e0.t ⟨[], []⟩ = ⟨[], []⟩ := rfl
    rw [hfire0, hte, queueMail, if_neg hem]
    rfl
  rw [hstep0]
  rw [runQ_fold cfg ok em hem rest (fun ev hv => hto ev (List.mem_cons_of_mem e0 hv)) e0.t ht
      e0.rName e0.eName e0.eEmail e0.changes []]
  have hlast : (rest.foldl (fun _ e => e.t) e0.t) = lastTime e0 rest := rfl
  rw [hlast]
  rw [fireDue_due_single cfg ok horizon em _ [] (by simpa using hhor) hsm]
  constructor
  · simp
  · rfl

/-- Witness for C1's amended theorem: two requests at times 0 and 5
with `D = 10` yield one Mailer invocation at time 15 with both events,
leaving the table empty. -/
theorem queueMail_sliding_window_witness :
    (runQ ⟨10, true⟩ true [⟨0, "Alice", "a@x", [ch1], "", ""⟩,
        ⟨5, "Alice", "a@x", [ch2], "", ""⟩] 15).sent =
      [⟨"a@x", (([⟨0, "Alice", "a@x", [ch1], "", ""⟩,
          ⟨5, "Alice", "a@x", [ch2], "", ""⟩] : List EnqEv).map (·.changes)).flatten,
        lastTime ⟨0, "Alice", "a@x", [ch1], "", ""⟩ [⟨5, "Alice", "a@x", [ch2], "", ""⟩] + 10,
        true⟩]
    ∧ (runQ ⟨10, true⟩ true [⟨0, "Alice", "a@x", [ch1], "", ""⟩,
        ⟨5, "Alice", "a@x", [ch2], "", ""⟩] 15).pending = [] :=
  queueMail_sliding_window ⟨10, true⟩ true "a@x" (by decide) rfl
    ⟨0, "Alice", "a@x", [ch1], "", ""⟩ [⟨5, "Alice", "a@x", [ch2], "", ""⟩]
    (by decide) (by decide) 15 (by decide)

/-- Counterexample for C1 as stated: under the server.js
`enqueueChanges` aggregator (also cited by the claim), three requests
for `"a@x"` at times 0, 9 and 18 with `D = 10` — each gap 9 < D — do
NOT coalesce into one Mailer invocation ≥ D after the last request: the
timer set by the first request is never rescheduled, so a first digest
with only the first two events fires at time 10 (before the third
request), and a second digest fires at 28. -/
theorem enqueueChanges_not_sliding :
    (runE ⟨10, true⟩ true [⟨0, "a@x", [ch1], none⟩, ⟨9, "a@x", [ch2], none⟩,
        ⟨18, "a@x", [ch3], none⟩] 40).sent =
      [⟨"a@x", [ch1, ch2], 10, true⟩, ⟨"a@x", [ch3], 28, true⟩] := by decide

/-- C2: a fired flush is atomic and discards on failure — with SMTP
configured, flushing an absent entry is a no-op; flushing a present
entry removes it from the table (before anything is handed to the
Mailer) and logs exactly one Mailer invocation whether or not delivery
succeeds (`ok` is arbitrary, failures are not re-enqueued); and a
subsequent enqueue for that recipient on the post-flush table starts a
fresh buffer holding only the new events. -/
theorem flush_atomic_discard (cfg : Config) (ok : Bool) (em : String) (st : Pending)
    (L : List MailRec) (e : QEntry) (hsm : cfg.smtpConfigured = true) :
    (plookup st em = none → sendDebouncedMail cfg ok em ⟨st, L⟩ = ⟨st, L⟩)
    ∧ (plookup st em = some e →
        sendDebouncedMail cfg ok em ⟨st, L⟩ =
          ⟨pdelete st em, L ++ [⟨em, e.changes, e.timerAt, ok⟩]⟩
        ∧ ∀ (t' : Nat) (nm : String) (cs : List Change) (eN eE : String), em ≠ "" →
            queueMail cfg t' nm em cs eN eE (pdelete st em) =
              pset (pdelete st em) em ⟨nm, cs, t' + cfg.D, eN, eE⟩) := by
  constructor
  · intro h
    simp [sendDebouncedMail, h]
  · intro h
    constructor
    · simp [sendDebouncedMail, h, hsm]
    · intro t' nm cs eN eE hem
      rw [queueMail, if_neg hem, plookup_pdelete]

/-- Witness for C2: a concrete table with one buffered entry for
`"a@x"`; the flush (here a failed one, `ok = false`) removes the entry
and logs one invocation, and a later enqueue starts a buffer holding
only the new event. -/
theorem flush_atomic_discard_witness :
    (sendDebouncedMail ⟨10, true⟩ false "a@x"
        ⟨[("a@x", ⟨"Alice", [ch1], 12, "", ""⟩)], []⟩ =
      ⟨pdelete [("a@x", ⟨"Alice", [ch1], 12, "", ""⟩)] "a@x",
        [] ++ [⟨"a@x", [ch1], 12, false⟩]⟩)
    ∧ (queueMail ⟨10, true⟩ 20 "Alice" "a@x" [ch2] "" ""
        (pdelete [("a@x", ⟨"Alice", [ch1], 12, "", ""⟩)] "a@x") =
      pset (pdelete [("a@x", ⟨"Alice", [ch1], 12, "", ""⟩)] "a@x") "a@x"
        ⟨"Alice", [ch2], 20 + 10, "", ""⟩) :=
  ⟨((flush_atomic_discard ⟨10, true⟩ false "a@x" [("a@x", ⟨"Alice", [ch1], 12, "", ""⟩)]
      [] ⟨"Alice", [ch1], 12, "", ""⟩ rfl).2 (by decide)).1,
   ((flush_atomic_discard ⟨10, true⟩ false "a@x" [("a@x", ⟨"Alice", [ch1], 12, "", ""⟩)]
      [] ⟨"Alice", [ch1], 12, "", ""⟩ rfl).2 (by decide)).2 20 "Alice" [ch2] "" ""
      (by decide)⟩

/-- C9: when SMTP is not configured, a fired flush still removes the
recipient's entry from the table but returns without invoking any
Mailer — the buffered events are silently discarded. -/
theorem flush_no_smtp_discards (cfg : Config) (ok : Bool) (em : String) (st : Pending)
    (L : List MailRec) (e : QEntry) (hsm : cfg.smtpConfigured = false)
    (h : plookup st em = some e) :
    sendDebouncedMail cfg ok em ⟨st, L⟩ = ⟨pdelete st em, L⟩ := by
  simp [sendDebouncedMail, h, hsm]

/-- Witness for C9: with SMTP unconfigured, flushing a buffered entry
deletes it and the invocation log stays empty. -/
theorem flush_no_smtp_discards_witness :
    sendDebouncedMail ⟨10, false⟩ true "a@x"
        ⟨[("a@x", ⟨"Alice", [ch1], 12, "", ""⟩)], []⟩ =
      ⟨pdelete [("a@x", ⟨"Alice", [ch1], 12, "", ""⟩)] "a@x", []⟩ :=
  flush_no_smtp_discards ⟨10, false⟩ true "a@x" [("a@x", ⟨"Alice", [ch1], 12, "", ""⟩)]
    [] ⟨"Alice", [ch1], 12, "", ""⟩ rfl (by decide)

/-- C10: `queueMail` with a falsy (empty/absent) recipient address
leaves the pending table entirely unchanged — no entry is created or
touched and no flush is scheduled. -/
theorem queueMail_empty_recipient_noop (cfg : Config) (now : Nat) (nm : String)
    (cs : List Change) (eN eE : String) (m : Pending) :
    queueMail cfg now nm "" cs eN eE m = m := by
  rw [queueMail, if_pos rfl]

/-! ## Claims C3 and C8 -/

theorem olookup_mem : ∀ {dir : List (String × String)} {k v : String},
    olookup dir k = some v → (k, v) ∈ dir := by
  intro dir
  induction dir with
  | nil => intro k v h; cases h
  | cons p rest ih =>
    intro k v h
    by_cases hp : p.1 = k
    · rw [olookup, if_pos hp] at h
      cases h
      cases p
      cases hp
      exact List.mem_cons_self _ _
    · rw [olookup, if_neg hp] at h
      exact List.mem_cons_of_mem p (ih h)

theorem olookup_of_mem_nodup : ∀ {dir : List (String × String)},
    (dir.map Prod.fst).Nodup → ∀ {kv : String × String}, kv ∈ dir →
      olookup dir kv.1 = some kv.2 := by
  intro dir
  induction dir with
  | nil => intro _ kv h; cases h
  | cons p rest ih =>
    intro hnd kv hm
    rw [List.map_cons, List.nodup_cons] at hnd
    rcases List.mem_cons.mp hm with rfl | hm'
    · rw [olookup, if_pos rfl]
    · have hne : p.1 ≠ kv.1 := by
        intro he
        exact hnd.1 (he ▸ List.mem_map.mpr ⟨kv, hm', rfl⟩)
      rw [olookup, if_neg hne]
      exact ih hnd.2 hm'

theorem firstCi_mem : ∀ {dir : List (String × String)} {name : String} {kv : String × String},
    firstCi dir name = some kv → kv ∈ dir ∧ jsToLower kv.1 = jsToLower name := by
  intro dir
  induction dir with
  | nil => intro name kv h; cases h
  | cons p rest ih =>
    intro name kv h
    by_cases hp : jsToLower p.1 = jsToLower name
    · rw [firstCi, if_pos hp] at h
      cases h
      exact ⟨List.mem_cons_self _ _, hp⟩
    · rw [firstCi, if_neg hp] at h
      have := ih h
      exact ⟨List.mem_cons_of_mem p this.1, this.2⟩

/-- Counterexample for C3 as stated: the resolver does not always
return the exact-match address when one exists.  The `!name` guard
sends the empty identifier to `null` even when the directory has an
exact key for it, and a falsy (empty) address at the exact key makes
the code fall through to the case-insensitive branch and answer with a
different key's address. -/
theorem resolveEmail_empty_cases :
    resolveEmailForName [("", "x@y.com")] "" = none
    ∧ resolveEmailForName [("BOB", "b@x.com"), ("Bob", "")] "Bob" = some "b@x.com" := by
  decide

/-- C3 (amended): for every non-empty identifier, over a directory with
unique keys and non-empty addresses, the resolver returns the
exact-match address when one exists, otherwise the address of the first
key matching case-insensitively, otherwise absent — and, being a total
function, it never throws on unknown identifiers. -/
theorem resolveEmail_lookup_order (dir : List (String × String)) (name : String)
    (hname : name ≠ "") (hnd : (dir.map Prod.fst).Nodup)
    (hvals : ∀ kv ∈ dir, kv.2 ≠ "") :
    (∀ e, olookup dir name = some e → resolveEmailForName dir name = some e)
    ∧ (olookup dir name = none →
        ∀ kv, firstCi dir name = some kv → resolveEmailForName dir name = some kv.2)
    ∧ (olookup dir name = none → firstCi dir name = none →
        resolveEmailForName dir name = none) := by
  refine ⟨?_, ?_, ?_⟩
  · intro e h
    have hmem : (name, e) ∈ dir := olookup_mem h
    have hne : e ≠ "" := hvals (name, e) hmem
    simp [resolveEmailForName, hname, h, hne]
  · intro h0 kv hf
    obtain ⟨hmem, hlow⟩ := firstCi_mem hf
    have hk : kv.1 ≠ "" := by
      intro he
      apply jsToLower_ne_empty hname
      rw [← hlow, he]
      rfl
    simp [resolveEmailForName, resolveFallback, hname, h0, hf, hk,
      olookup_of_mem_nodup hnd hmem]
  · intro h0 hf
    simp [resolveEmailForName, resolveFallback, hname, h0, hf]

/-- Witness for C3's amended theorem: the spec's concrete scenario —
`"alice"` against a directory holding `"Alice"` — resolves through the
case-insensitive fallback. -/
theorem resolveEmail_lookup_order_witness :
    resolveEmailForName [("Alice", "alice@x.com")] "alice" = some "alice@x.com" :=
  (resolveEmail_lookup_order [("Alice", "alice@x.com")] "alice" (by decide) (by decide)
    (by decide)).2.1 (by decide) ("Alice", "alice@x.com") (by decide)

theorem normalizeLinks_eq_nil (t : Option Task) (h : rawLinks t = none) :
    normalizeLinks t = [] := by
  rw [normalizeLinks, h]

theorem normalizeLinks_eq_s (t : Option Task) (str : String)
    (h : rawLinks t = some (.s str)) :
    normalizeLinks t =
      if str = "" then [] else ((jsSplitWs str).map jsTrim).filter (· ≠ "") := by
  rw [normalizeLinks, h]

theorem normalizeLinks_eq_l (t : Option Task) (xs : List String)
    (h : rawLinks t = some (.l xs)) :
    normalizeLinks t = (xs.map jsTrim).filter (· ≠ "") := by
  rw [normalizeLinks, h]

theorem normalizeLinks_elems (t : Option Task) :
    ∀ s ∈ normalizeLinks t, jsTrim s = s ∧ s ≠ "" := by
  intro s hs
  rcases hraw : rawLinks t with - | sol
  · rw [normalizeLinks_eq_nil t hraw] at hs
    cases hs
  · cases sol with
    | s str =>
      rw [normalizeLinks_eq_s t str hraw] at hs
      by_cases he : str = ""
      · rw [if_pos he] at hs
        cases hs
      · rw [if_neg he] at hs
        rw [List.mem_filter] at hs
        obtain ⟨hm, hne⟩ := hs
        rcases List.mem_map.mp hm with ⟨r, -, rfl⟩
        exact ⟨jsTrim_idem r, by simpa using hne⟩
    | l xs =>
      rw [normalizeLinks_eq_l t xs hraw] at hs
      rw [List.mem_filter] at hs
      obtain ⟨hm, hne⟩ := hs
      rcases List.mem_map.mp hm with ⟨r, -, rfl⟩
      exact ⟨jsTrim_idem r, by simpa using hne⟩

/-- Counterexample for C8 as stated: `pickComparable` does not
deduplicate — duplicated links survive (sorted but repeated), and
`assignedTo` is sorted without being trimmed. -/
theorem pickComparable_keeps_duplicates :
    (pickComparable (some twD)).links = ["a", "a", "b"]
    ∧ ¬ (pickComparable (some twD)).links.Nodup
    ∧ (pickComparable (some twD)).assignedTo = [" x "] := by
  decide

/-- C8 (amended): `pickComparable` returns a record of only the watched
fields in which the four scalar fields are trimmed strings
(description falling back to `comment`), `links` is a lexicographically
sorted permutation of the trimmed non-empty raw links (duplicates
preserved), `assignedTo` is a sorted permutation of the raw assignee
list (not trimmed, not deduplicated), and an absent task yields the
record of empty defaults without raising. -/
theorem pickComparable_canonical_form (t : Option Task) :
    (pickComparable t).links.Sorted (fun a b => strLeB a b = true)
    ∧ (∀ s ∈ (pickComparable t).links, jsTrim s = s ∧ s ≠ "")
    ∧ List.Perm (pickComparable t).links (normalizeLinks t)
    ∧ (pickComparable t).assignedTo.Sorted (fun a b => strLeB a b = true)
    ∧ List.Perm (pickComparable t).assignedTo (assignedOf t)
    ∧ jsTrim (pickComparable t).status = (pickComparable t).status
    ∧ jsTrim (pickComparable t).title = (pickComparable t).title
    ∧ jsTrim (pickComparable t).description = (pickComparable t).description
    ∧ jsTrim (pickComparable t).deadline = (pickComparable t).deadline
    ∧ pickComparable none = ⟨"", "", "", "", [], []⟩ := by
  refine ⟨sorted_sortStrings _, ?_, sortStrings_perm _, ?_, ?_, jsTrim_idem _, jsTrim_idem _,
    jsTrim_idem _, jsTrim_idem _, rfl⟩
  · intro s hs
    exact normalizeLinks_elems t s ((sortStrings_perm _).mem_iff.mp hs)
  · show ((pickComparable t).assignedTo).Sorted _
    rw [pickComparable]
    cases ha : t.bind (·.assignedTo) with
    | none => simp
    | some l => simpa using sorted_sortStrings l
  · show List.Perm ((pickComparable t).assignedTo) (assignedOf t)
    rw [pickComparable, assignedOf]
    cases ha : t.bind (·.assignedTo) with
    | none => simp
    | some l => simpa using sortStrings_perm l

end PMTool
